import Mathlib

/-!
# Verification of the infinite-craft-bot core

A shallow embedding of the core algorithms of the `infinite-craft-bot`
repository, with theorems checking the natural-language specification
against the code.

Embedded components:

* `compute_elements_paths` — the batch fixed-point path solver
  (`src/infinite_craft_bot/element_paths/compute_paths.py`);
* `load_recipes` of the two persistence backends
  (`persistence/json_file.py`, `persistence/csv_file.py`);
* the recipe expander and fuzzy name lookup (`query_full_recipe.py`);
* the low-depth-biased sampling strategy and the crawl classification step
  (`crawler/sample_elements.py`, `crawler/common.py`);
* the exhaustive strategy's cursor and sampling
  (`crawler/exhaustive_by_depth.py`).

Python `dict`s are modelled as insertion-ordered association lists
(first binding wins on lookup, assignment replaces the first binding in
place or appends), Python `set`s / `frozenset`s as `Finset String`,
and code that can raise (`KeyError`, `IndexError`, `DataError`,
`ValueError`) returns `Option` / an explicit error constructor.
Randomness is modelled by explicit streams of drawn values, and `while`
loops without a structural bound take explicit fuel.
-/

set_option autoImplicit false

namespace InfiniteCraftBot

/-! ## Association-list model of Python dicts -/

/-- `d.get(k)` / `d[k]` on a Python dict modelled as an association list:
the first binding of `k` wins. -/
def alookup {κ ν : Type} [DecidableEq κ] : List (κ × ν) → κ → Option ν
  | [], _ => none
  | (k', v) :: rest, k => if k' = k then some v else alookup rest k

/-- `d[k] = v` on a Python dict: replace the first binding of `k` in place,
or append a new binding at the end. -/
def aset {κ ν : Type} [DecidableEq κ] : List (κ × ν) → κ → ν → List (κ × ν)
  | [], k, v => [(k, v)]
  | (k', v') :: rest, k, v =>
    if k' = k then (k, v) :: rest else (k', v') :: aset rest k v

theorem alookup_aset_self {κ ν : Type} [DecidableEq κ]
    (m : List (κ × ν)) (k : κ) (v : ν) : alookup (aset m k v) k = some v := by
  induction m with
  | nil => simp [aset, alookup]
  | cons hd tl ih =>
    obtain ⟨k', v'⟩ := hd
    by_cases h : k' = k <;> simp [aset, alookup, h, ih]

theorem alookup_aset_ne {κ ν : Type} [DecidableEq κ]
    (m : List (κ × ν)) (k k' : κ) (v : ν) (hne : k ≠ k') :
    alookup (aset m k v) k' = alookup m k' := by
  induction m with
  | nil => simp [aset, alookup, hne]
  | cons hd tl ih =>
    obtain ⟨k₀, v₀⟩ := hd
    by_cases h : k₀ = k
    · subst h
      simp [aset, alookup, hne]
    · simp [aset, alookup, h, ih]

theorem alookup_mem {κ ν : Type} [DecidableEq κ]
    {m : List (κ × ν)} {k : κ} {v : ν} (h : alookup m k = some v) : (k, v) ∈ m := by
  induction m with
  | nil => simp [alookup] at h
  | cons hd tl ih =>
    obtain ⟨k₀, v₀⟩ := hd
    by_cases hk : k₀ = k
    · subst hk
      simp [alookup] at h
      simp [h]
    · simp [alookup, hk] at h
      exact List.mem_cons_of_mem _ (ih h)

/-! ## PathIndex: the batch fixed-point solver (`compute_paths.py`)

`compute_elements_paths` receives `recipes: OrderedDict[frozenset[str], str]`
and first converts it into `recipes_as_tuples: list[tuple[str, str, str]]`
(lines 28–35; a singleton frozenset `{x}` becomes `(x, x, result)`, a
two-element frozenset is unpacked in its iteration order).  The relaxation
loop (lines 37–58) works on that list, so the embedding takes the tuple
list as input. -/

/-- `ElementPath` (`persistence/common.py`): chosen ancestors (`None` for a
root) and the set of all element names in the recorded derivation tree. -/
structure ElementPath where
  ancestors : Option (String × String)
  path : Finset String
deriving DecidableEq

/-- The `elements_paths` dict of `compute_elements_paths`. -/
abbrev PathMap := List (String × ElementPath)

/-- One entry of `recipes_as_tuples`: `(first, second, result)`. -/
abbrev RecipeT := String × String × String

/-- The body of the inner `for` loop of `compute_elements_paths`
(compute_paths.py lines 41–52) for a single recipe.  `none` models the
`KeyError` raised by `elements_paths[first]` / `elements_paths[second]`
when an ingredient has no recorded path (the code has no membership
check before these subscripts).  The returned `Bool` is whether this
step set `modified = True`. -/
def relaxStep (m : PathMap) (r : RecipeT) : Option (PathMap × Bool) :=
  match alookup m r.1, alookup m r.2.1 with
  | some pf, some ps =>
    let new_path : Finset String := pf.path ∪ ps.path ∪ {r.2.2}
    match alookup m r.2.2 with
    | some pr =>
      if new_path.card < pr.path.card then
        some (aset m r.2.2 ⟨some (r.1, r.2.1), new_path⟩, true)
      else
        some (m, false)
    | none => some (aset m r.2.2 ⟨some (r.1, r.2.1), new_path⟩, true)
  | _, _ => none

/-- One full pass of the inner `for` loop over all recipes, threading the
`modified` flag (compute_paths.py lines 39–52). -/
def runPass (m : PathMap) (modified : Bool) : List RecipeT → Option (PathMap × Bool)
  | [] => some (m, modified)
  | r :: rest =>
    match relaxStep m r with
    | none => none
    | some (m', mod') => runPass m' (modified || mod') rest

/-- Outcome of the solver: the outer loop either runs out of fuel (never
happens, see `compute_elements_paths_terminates`), raises `KeyError` on a
missing ingredient, or converges on the first pass without modification. -/
inductive SolveResult where
  | outOfFuel
  | missingIngredient
  | converged (m : PathMap)
deriving DecidableEq

/-- The outer `for i in count()` loop of `compute_elements_paths`
(lines 37–58): repeat full passes until one makes no modification. -/
def solveLoop (rs : List RecipeT) : Nat → PathMap → SolveResult
  | 0, _ => .outOfFuel
  | fuel + 1, m =>
    match runPass m false rs with
    | none => .missingIngredient
    | some (m', true) => solveLoop rs fuel m'
    | some (m', false) => .converged m'

/-- The default `root_elements` argument of `compute_elements_paths`. -/
def rootElements : List String := ["Water", "Fire", "Wind", "Earth"]

/-- `{element: ElementPath(None, set()) for element in root_elements}`
(compute_paths.py line 24). -/
def initPaths (roots : List String) : PathMap :=
  roots.map fun r => (r, ⟨none, ∅⟩)

/-- All element names occurring in the roots or the recipes; every path
set the solver ever stores is contained in it. -/
def universeNames (roots : List String) (rs : List RecipeT) : Finset String :=
  roots.toFinset ∪ (rs.map (·.1)).toFinset ∪ (rs.map (·.2.1)).toFinset
    ∪ (rs.map (·.2.2)).toFinset

/-- Fuel sufficient for the outer loop to reach a pass without
modification (proved in `compute_elements_paths_terminates`). -/
def solverFuel (roots : List String) (rs : List RecipeT) : Nat :=
  (rs.map (·.2.2)).toFinset.card * ((universeNames roots rs).card + 1) + 1

/-- `compute_elements_paths` (compute_paths.py lines 21–60), on the
pre-converted `recipes_as_tuples` list. -/
def compute_elements_paths (rs : List RecipeT) (roots : List String) : SolveResult :=
  solveLoop rs (solverFuel roots rs) (initPaths roots)

/-- The cardinality of the path recorded for `e` by a solver run
(`none` if the run did not converge or `e` got no entry). -/
def pathCardOf (res : SolveResult) (e : String) : Option Nat :=
  match res with
  | .converged m => (alookup m e).map fun p => p.path.card
  | _ => none

/-- Weight of an element in the termination measure: `B` while it has no
entry, otherwise its current path cardinality. -/
def pathWeight (B : Nat) (m : PathMap) (k : String) : Nat :=
  match alookup m k with
  | none => B
  | some p => p.path.card

/-- Termination measure of the relaxation: summed weight over all result
names.  Every accepted update strictly decreases it. -/
def solverMeasure (B : Nat) (results : Finset String) (m : PathMap) : Nat :=
  results.sum (pathWeight B m)

/-- Invariant: every stored path set is contained in the name universe. -/
def PathsInU (U : Finset String) (m : PathMap) : Prop :=
  ∀ k p, alookup m k = some p → p.path ⊆ U

/-- The full entry recorded for `e` by a solver run. -/
def lookupOf (res : SolveResult) (e : String) : Option ElementPath :=
  match res with
  | .converged m => alookup m e
  | _ => none

/-- The ancestors recorded for `e` by a solver run. -/
def ancestorsOf (res : SolveResult) (e : String) : Option (Option (String × String)) :=
  (lookupOf res e).map (·.ancestors)

/-- Whether `x` is in the path recorded for `e` by a solver run. -/
def pathMemOf (res : SolveResult) (e x : String) : Bool :=
  match lookupOf res e with
  | some p => decide (x ∈ p.path)
  | none => false

/-- The recipe list is ordered so that each recipe's ingredients are roots
or results of strictly earlier recipes (the repository's data validity
test `test_ingredients_have_been_made` checks exactly this for the
persisted recipes, which are appended in discovery order). -/
def IngredientsProduced : List String → List RecipeT → Prop
  | _, [] => True
  | produced, r :: rest =>
    r.1 ∈ produced ∧ r.2.1 ∈ produced ∧ IngredientsProduced (r.2.2 :: produced) rest

instance instDecIngredientsProduced :
    ∀ (produced : List String) (rs : List RecipeT),
      Decidable (IngredientsProduced produced rs)
  | _, [] => .isTrue trivial
  | produced, r :: rest =>
    have : Decidable (IngredientsProduced (r.2.2 :: produced) rest) :=
      instDecIngredientsProduced _ _
    inferInstanceAs (Decidable (_ ∧ _ ∧ _))

/-- Invariant: every recorded ancestor pair stems from a recipe of the
processed list. -/
def AncFromRecipes (rs : List RecipeT) (m : PathMap) : Prop :=
  ∀ k p a b, alookup m k = some p → p.ancestors = some (a, b) → (a, b, k) ∈ rs

/-- Invariant: every entry for a non-root key records an ancestor pair and
contains the key in its own path set. -/
def NonRootSelf (roots : List String) (m : PathMap) : Prop :=
  ∀ k p, alookup m k = some p → k ∉ roots → p.ancestors ≠ none ∧ k ∈ p.path

/-! ## Persistence: `load_recipes` of the two backends

Both backends turn a list of raw `(first, second, result)` rows into an
`OrderedDict[frozenset[str], str]`.  File parsing is external; the
embedding starts from the parsed rows. -/

/-- `OrderedDict((frozenset((first, second)), result) for ... )`:
later rows with an already-present unordered pair overwrite the value,
keeping the first insertion position. -/
def recipesOrderedDict (rows : List (String × String × String)) :
    List (Finset String × String) :=
  rows.foldl (fun m row => aset m {row.1, row.2.1} row.2.2) []

/-- `JsonRepository.load_recipes` (json_file.py lines 38–68): builds the
ordered dict and raises `DataError` (`none`) when its length differs from
the raw list's length, i.e. when some unordered pair occurred twice. -/
def json_load_recipes (rows : List (String × String × String)) :
    Option (List (Finset String × String)) :=
  let result := recipesOrderedDict rows
  if result.length = rows.length then some result else none

/-- `PaginatedCsvRepository.load_recipes` (csv_file.py lines 61–71): builds
the ordered dict row by row and returns it; no duplicate check is
performed (`_find_duplicate_recipes` is never called). -/
def csv_load_recipes (rows : List (String × String × String)) :
    List (Finset String × String) :=
  recipesOrderedDict rows

/-! ## RecipeExpander and fuzzy name lookup (`query_full_recipe.py`) -/

/-- `Operation` (query_full_recipe.py lines 10–14). -/
structure Operation where
  first : String
  second : String
  result : String
deriving DecidableEq

/-- `self.element_ancestors`: element name → `None` (root) or the ordered
ancestor pair. -/
abbrev AncMap := List (String × Option (String × String))

/-- `str.capitalize()`: first character uppercased, the rest lowercased. -/
def pyCapitalize (s : String) : String :=
  match s.toList with
  | [] => ""
  | c :: rest => String.mk (c.toUpper :: rest.map Char.toLower)

/-- Helper for `pySplitWhitespace`: walk the characters, accumulating the
current word (reversed). -/
def splitWhitespaceAux : List Char → List Char → List String
  | [], acc => if acc.isEmpty then [] else [String.mk acc.reverse]
  | c :: rest, acc =>
    if c.isWhitespace then
      if acc.isEmpty then splitWhitespaceAux rest []
      else String.mk acc.reverse :: splitWhitespaceAux rest []
    else splitWhitespaceAux rest (c :: acc)

/-- `str.split()` with no argument: split on runs of whitespace,
discarding empty words. -/
def pySplitWhitespace (s : String) : List String :=
  splitWhitespaceAux s.toList []

/-- The first transformation of `name_variations` (line 49):
`s.replace("'", "’")` (the pattern is a single character, so this is a
character-wise map). -/
def apostropheTransform (s : String) : String :=
  String.mk (s.toList.map fun c => if c = '\'' then '’' else c)

/-- The second transformation of `name_variations` (line 51):
`" ".join(word.capitalize() for word in s.split())`. -/
def titleTransform (s : String) : String :=
  String.intercalate " " ((pySplitWhitespace s).map pyCapitalize)

/-- `itertools.combinations(l, n)`, as lists in the source order. -/
def combinations {α : Type} : Nat → List α → List (List α)
  | 0, _ => [[]]
  | _ + 1, [] => []
  | n + 1, x :: xs => (combinations n xs).map (x :: ·) ++ combinations (n + 1) xs

/-- `all_subsets` (query_full_recipe.py lines 17–23): all subsets ordered
ascending by size.  (The Python version converts each combination to a
`set`, whose iteration order is unspecified; the two transformations used
on it commute, so the combination order is kept.) -/
def all_subsets {α : Type} (l : List α) : List (List α) :=
  (List.range (l.length + 1)).flatMap fun n => combinations n l

/-- `FullRecipeQuery.name_variations` (lines 46–57): apply every subset of
the two transformations, via `reduce`. -/
def name_variations (element_name : String) : List String :=
  (all_subsets [apostropheTransform, titleTransform]).map fun transforms =>
    transforms.foldl (fun name f => f name) element_name

/-- Helper for `firstDedup`: keep entries not seen yet, in order. -/
def firstDedupAux {α : Type} [DecidableEq α] (seen : List α) : List α → List α
  | [] => []
  | x :: rest =>
    if x ∈ seen then firstDedupAux seen rest
    else x :: firstDedupAux (x :: seen) rest

/-- `list(dict.fromkeys(l))`: remove duplicates keeping the first
occurrence of each entry, in order. -/
def firstDedup {α : Type} [DecidableEq α] (l : List α) : List α :=
  firstDedupAux [] l

/-- An input of an operation is acceptable when it is a root element
(recorded ancestors `None`) or has been produced before. -/
def InputOk (anc : AncMap) (produced : List String) (x : String) : Prop :=
  alookup anc x = some none ∨ x ∈ produced

/-- Well-formedness of an operation list: walking it front to back, each
operation's two inputs are roots or results of earlier operations. -/
def OpsOk (anc : AncMap) : List String → List Operation → Prop
  | _, [] => True
  | produced, op :: rest =>
    InputOk anc produced op.first ∧ InputOk anc produced op.second ∧
      OpsOk anc (op.result :: produced) rest

/-- The produced names after executing a list of operations. -/
def producedAfter (P : List String) : List Operation → List String
  | [] => P
  | op :: rest => producedAfter (op.result :: P) rest

/-- `FullRecipeQuery._query_full_recipe` (lines 59–70).  `none` models
the `ValueError` for an unknown element, or fuel exhaustion (the Python
recursion diverges on a cyclic ancestor map). -/
def _query_full_recipe (anc : AncMap) : Nat → String → Option (List Operation)
  | 0, _ => none
  | fuel + 1, element =>
    match alookup anc element with
    | none => none
    | some none => some []
    | some (some (first, second)) =>
      match _query_full_recipe anc fuel first, _query_full_recipe anc fuel second with
      | some l1, some l2 =>
        some (firstDedup (l1 ++ l2) ++ [⟨first, second, element⟩])
      | _, _ => none

/-- `FullRecipeQuery.query_full_recipe` (lines 30–44): expand the first
name variation that is present in the ancestor map, `none` if no
variation is present. -/
def query_full_recipe (anc : AncMap) (fuel : Nat) (element : String) :
    Option (List Operation) :=
  match (name_variations element).find? (fun name => (alookup anc name).isSome) with
  | none => none
  | some element_name => _query_full_recipe anc fuel element_name

/-- The ancestor map of the spec's worked example: roots
`Water, Fire, Wind, Earth`; `Water+Fire→Steam`, `Steam+Earth→Mud`,
`Water+Earth→Plant`, `Plant+Mud→Life`. -/
def exampleAncestors : AncMap :=
  [("Water", none), ("Fire", none), ("Wind", none), ("Earth", none),
   ("Steam", some ("Water", "Fire")), ("Mud", some ("Steam", "Earth")),
   ("Plant", some ("Water", "Earth")), ("Life", some ("Plant", "Mud"))]

/-- A rank function witnessing that `exampleAncestors` is acyclic. -/
def exampleRank : String → Nat := fun x =>
  if x = "Life" then 3
  else if x = "Mud" then 2
  else if x = "Steam" then 1
  else if x = "Plant" then 1
  else 0

/-! ## Sampling strategies and the crawl classification step -/

/-- `elements_to_path`: element name → path set. -/
abbrev PathsDict := List (String × Finset String)

/-- `skewed_towards_low_depth` (sample_elements.py lines 22–71).

The random draws are explicit streams: `idxDraws` holds the outcomes
`(int(abs(i)), int(abs(j)))` of the half-normal index draws (line 48–49),
`keepDraws` the outcomes of `random.random()` (line 70) as rationals in
`[0, 1)`.  A draw pair with an out-of-range index repeats the inner
`while` (line 47); a pair flagged by `discard_result_predicate` restarts
the outer loop without consuming a keep draw (lines 52–53).  The keep
test `u < (1 / (1 + nonOverlap)) ** 0.5` is expressed on squared form
`u * u * (1 + nonOverlap) < 1`, equivalent for `0 ≤ u < 1`.  `none`
models exhaustion of a stream, or the `KeyError` of
`elements_to_path[first_name]` for an element without a path entry. -/
def skewed_towards_low_depth (els : List String) (paths : PathsDict)
    (discard : String → String → Bool) :
    List (Nat × Nat) → List ℚ → Option (String × String)
  | [], _ => none
  | (i, j) :: restIdx, keepDraws =>
    if h : i < els.length ∧ j < els.length then
      let first_name := els.get ⟨i, h.1⟩
      let second_name := els.get ⟨j, h.2⟩
      if discard first_name second_name then
        skewed_towards_low_depth els paths discard restIdx keepDraws
      else
        match alookup paths first_name, alookup paths second_name with
        | some first_path, some second_path =>
          let non_overlapping_path_length :=
            min first_path.card second_path.card - (first_path ∩ second_path).card
          match keepDraws with
          | [] => none
          | u :: restKeep =>
            if u * u * (1 + (non_overlapping_path_length : ℚ)) < 1 then
              some (first_name, second_name)
            else
              skewed_towards_low_depth els paths discard restIdx restKeep
        | _, _ => none
    else
      skewed_towards_low_depth els paths discard restIdx keepDraws

/-- `fully_random` (sample_elements.py lines 74–86): pick two uniformly
random elements and reject the pair while `discard_result_predicate`
flags it.  The draws are the outcomes of the two `random.choice` calls,
modelled as a stream of index pairs into the element list; real
`random.choice` outcomes are always in range, so a stream carrying an
out-of-range index is invalid and yields `none`, as does an exhausted
stream. -/
def fully_random (elements : List String) (discard : String → String → Bool) :
    List (Nat × Nat) → Option (String × String)
  | [] => none
  | (i, j) :: rest =>
    if h : i < elements.length ∧ j < elements.length then
      if discard (elements.get ⟨i, h.1⟩) (elements.get ⟨j, h.2⟩) then
        fully_random elements discard rest
      else
        some (elements.get ⟨i, h.1⟩, elements.get ⟨j, h.2⟩)
    else none

/-- `TargetedCrawler.sample_elements` (targeted.py lines 197–217): the
same index-draw structure as the low-depth strategy (exponential draws
`int(abs(·))`, re-drawn while out of range), skipping pairs whose
frozenset is already in the recipe set; before returning, the debug log
line subscripts `elements_to_target_similarity` with both names (a
`KeyError`, modelled as `none`, if a name has no similarity score).
The similarity scores are only looked up, never computed with, so their
type is a parameter. -/
def targeted_sample_elements {α : Type} (els : List String)
    (sims : List (String × α)) (recipes : Finset (Finset String)) :
    List (Nat × Nat) → Option (String × String)
  | [] => none
  | (i, j) :: rest =>
    if h : i < els.length ∧ j < els.length then
      if ({els.get ⟨i, h.1⟩, els.get ⟨j, h.2⟩} : Finset String) ∈ recipes then
        targeted_sample_elements els sims recipes rest
      else
        match alookup sims (els.get ⟨i, h.1⟩), alookup sims (els.get ⟨j, h.2⟩) with
        | some _, some _ => some (els.get ⟨i, h.1⟩, els.get ⟨j, h.2⟩)
        | _, _ => none
    else
      targeted_sample_elements els sims recipes rest

/-- The shared in-memory state of `Crawler` (crawler/common.py
`init_data`): the recipe set, the element-name set and the element list. -/
structure CrawlState where
  recipes : Finset (Finset String)
  elements_set : Finset String
  elements_list : List String
deriving DecidableEq

/-- The classification part of one `Crawler.crawl` iteration
(common.py lines 102–116) after a successful craft of
`first + second = resultText`: `process_recipe` always records the
recipe; a `"Nothing"` result stops there; a known element is left to
`process_known_element` (a no-op in the base class); a new element is
added to the element set and list by `process_new_element`. -/
def crawl_classify (st : CrawlState) (first second resultText : String) : CrawlState :=
  let st1 : CrawlState := { st with recipes := insert {first, second} st.recipes }
  if resultText = "Nothing" then st1
  else if resultText ∈ st1.elements_set then st1
  else { st1 with
          elements_set := insert resultText st1.elements_set,
          elements_list := st1.elements_list ++ [resultText] }

/-! ## Exhaustive strategy (`crawler/exhaustive_by_depth.py`) -/

/-- The three-state claim map `self.recipes`: a key absent is unexplored,
`false` is claimed/in-flight, `true` is fully committed. -/
abbrev ClaimMap := List (Finset String × Bool)

/-- `ExhaustiveCrawler.increment_dual_index_tuple` (lines 124–129). -/
def increment_dual_index_tuple (t : Nat × Nat) : Nat × Nat :=
  if t.1 = t.2 then (t.1 + 1, 0) else (t.1, t.2 + 1)

/-- `frozenset(self.sorted_elements[x] for x in combination)`; `none`
models the `IndexError` for an index beyond the element list. -/
def comboAt (els : List String) (c : Nat × Nat) : Option (Finset String) :=
  match els.get? c.1, els.get? c.2 with
  | some a, some b => some {a, b}
  | _, _ => none

/-- `ExhaustiveCrawler.update_next_craft_combiantion` (lines 84–101):
advance the cursor while the combination under it maps to `True`
(committed) in the claim map.  (The checkpoint write to the collaborator
store after an advance is external.) -/
def update_next_craft_combiantion (els : List String) (recipes : ClaimMap) :
    Nat → Nat × Nat → Option (Nat × Nat)
  | 0, _ => none
  | fuel + 1, c =>
    match comboAt els c with
    | none => none
    | some ing =>
      if alookup recipes ing = some true then
        update_next_craft_combiantion els recipes fuel (increment_dual_index_tuple c)
      else
        some c

/-- `ExhaustiveCrawler.sample_elements` (lines 103–122): starting from
the shared cursor, walk the combination order until a pair absent from
the claim map is found; claim it (`recipes[ingredients] = False`) and
return it.  The shared cursor itself is not modified. -/
def sample_elements_exhaustive (els : List String) (recipes : ClaimMap) :
    Nat → Nat × Nat → Option (String × String × ClaimMap)
  | 0, _ => none
  | fuel + 1, c =>
    match els.get? c.1, els.get? c.2 with
    | some first, some second =>
      if (alookup recipes ({first, second} : Finset String)).isSome then
        sample_elements_exhaustive els recipes fuel (increment_dual_index_tuple c)
      else
        some (first, second, aset recipes {first, second} false)
    | _, _ => none

/-- `ExhaustiveCrawler.process_recipe` (lines 131–143): mark the recipe
committed (`True`), then advance the cursor.  (The repository append is
external.) -/
def process_recipe_exhaustive (els : List String) (recipes : ClaimMap)
    (fuel : Nat) (recipe : Finset String) (c : Nat × Nat) :
    ClaimMap × Option (Nat × Nat) :=
  let recipes' := aset recipes recipe true
  (recipes', update_next_craft_combiantion els recipes' fuel c)

/-! ## Solver lemmas -/

theorem relaxStep_not_modified {m m' : PathMap} {r : RecipeT}
    (h : relaxStep m r = some (m', false)) : m' = m := by
  unfold relaxStep at h
  split at h
  · split at h
    · dsimp only at h
      split at h
      · simp at h
      · simpa using h.symm
    · simp at h
  · simp at h

theorem runPass_acc_true {rs : List RecipeT} :
    ∀ {m m' : PathMap} {b' : Bool}, runPass m true rs = some (m', b') → b' = true := by
  induction rs with
  | nil =>
    intro m m' b' h
    simp only [runPass, Option.some.injEq, Prod.mk.injEq] at h
    exact h.2.symm
  | cons r rest ih =>
    intro m m' b' h
    unfold runPass at h
    split at h
    · exact absurd h (by simp)
    · exact ih h

theorem runPass_fix {rs : List RecipeT} :
    ∀ {m m' : PathMap}, runPass m false rs = some (m', false) →
      m' = m ∧ ∀ r ∈ rs, relaxStep m r = some (m, false) := by
  induction rs with
  | nil =>
    intro m m' h
    simp [runPass] at h
    simp [h]
  | cons r rest ih =>
    intro m m' h
    unfold runPass at h
    split at h
    · exact absurd h (by simp)
    · rename_i m₁ mod hstep
      cases mod with
      | true => exact absurd (runPass_acc_true h) (by simp)
      | false =>
        have hm₁ : m₁ = m := relaxStep_not_modified hstep
        subst hm₁
        obtain ⟨h1, h2⟩ := ih h
        refine ⟨h1, ?_⟩
        intro r' hr'
        rcases List.mem_cons.mp hr' with h | h
        · subst h; exact hstep
        · exact h2 r' h

theorem solveLoop_converged {rs : List RecipeT} :
    ∀ {fuel : Nat} {m m' : PathMap}, solveLoop rs fuel m = .converged m' →
      runPass m' false rs = some (m', false) := by
  intro fuel
  induction fuel with
  | zero => intro m m' h; simp [solveLoop] at h
  | succ n ih =>
    intro m m' h
    unfold solveLoop at h
    split at h
    · simp at h
    · exact ih h
    · rename_i m₁ hp
      have hm : m' = m₁ := by simpa using h.symm
      subst hm
      have := (runPass_fix hp).1
      subst this
      exact hp

theorem compute_converged_fix {rs : List RecipeT} {roots : List String} {m : PathMap}
    (h : compute_elements_paths rs roots = .converged m) :
    ∀ r ∈ rs, relaxStep m r = some (m, false) :=
  (runPass_fix (solveLoop_converged h)).2

theorem relaxStep_fix_spec {m : PathMap} {r : RecipeT}
    (h : relaxStep m r = some (m, false)) :
    ∃ pf ps pr, alookup m r.1 = some pf ∧ alookup m r.2.1 = some ps ∧
      alookup m r.2.2 = some pr ∧
      pr.path.card ≤ (pf.path ∪ ps.path ∪ {r.2.2}).card := by
  unfold relaxStep at h
  split at h
  · rename_i pf ps hf hs
    split at h
    · rename_i pr hres
      dsimp only at h
      split at h
      · simp at h
      · rename_i hlt
        exact ⟨pf, ps, pr, hf, hs, hres, Nat.le_of_not_lt hlt⟩
    · simp at h
  · simp at h

theorem relaxStep_modified_spec {m m' : PathMap} {r : RecipeT}
    (h : relaxStep m r = some (m', true)) :
    ∃ pf ps, alookup m r.1 = some pf ∧ alookup m r.2.1 = some ps ∧
      m' = aset m r.2.2 ⟨some (r.1, r.2.1), pf.path ∪ ps.path ∪ {r.2.2}⟩ ∧
      ((∃ pr, alookup m r.2.2 = some pr ∧
          (pf.path ∪ ps.path ∪ {r.2.2}).card < pr.path.card)
        ∨ alookup m r.2.2 = none) := by
  unfold relaxStep at h
  split at h
  · rename_i pf ps hf hs
    split at h
    · rename_i pr hres
      dsimp only at h
      split at h
      · rename_i hlt
        refine ⟨pf, ps, hf, hs, ?_, Or.inl ⟨pr, hres, hlt⟩⟩
        simpa using h.symm
      · simp at h
    · rename_i hres
      refine ⟨pf, ps, hf, hs, ?_, Or.inr hres⟩
      simpa using h.symm
  · simp at h

theorem pathsInU_relaxStep {U : Finset String} {m m' : PathMap} {r : RecipeT} {b : Bool}
    (hU : PathsInU U m) (hr : r.2.2 ∈ U) (h : relaxStep m r = some (m', b)) :
    PathsInU U m' := by
  cases b with
  | false => rw [relaxStep_not_modified h]; exact hU
  | true =>
    obtain ⟨pf, ps, hf, hs, hm', _⟩ := relaxStep_modified_spec h
    subst hm'
    intro k p hk
    by_cases hkr : r.2.2 = k
    · subst hkr
      rw [alookup_aset_self] at hk
      cases hk
      exact Finset.union_subset
        (Finset.union_subset (hU _ _ hf) (hU _ _ hs))
        (Finset.singleton_subset_iff.mpr hr)
    · rw [alookup_aset_ne _ _ _ _ hkr] at hk
      exact hU _ _ hk

theorem relaxStep_measure_lt {U results : Finset String} {m m' : PathMap} {r : RecipeT}
    (hU : PathsInU U m) (hres : r.2.2 ∈ results) (hrU : r.2.2 ∈ U)
    (h : relaxStep m r = some (m', true)) :
    solverMeasure (U.card + 1) results m' < solverMeasure (U.card + 1) results m := by
  obtain ⟨pf, ps, hf, hs, hm', hcase⟩ := relaxStep_modified_spec h
  have hsub : pf.path ∪ ps.path ∪ {r.2.2} ⊆ U :=
    Finset.union_subset (Finset.union_subset (hU _ _ hf) (hU _ _ hs))
      (Finset.singleton_subset_iff.mpr hrU)
  have hlt : pathWeight (U.card + 1) m' r.2.2 < pathWeight (U.card + 1) m r.2.2 := by
    subst hm'
    rcases hcase with ⟨pr, hpr, hclt⟩ | hnone
    · simp only [pathWeight, alookup_aset_self, hpr]
      exact hclt
    · simp only [pathWeight, alookup_aset_self, hnone]
      exact Nat.lt_succ_of_le (Finset.card_le_card hsub)
  have heq : ∀ k, r.2.2 ≠ k →
      pathWeight (U.card + 1) m' k = pathWeight (U.card + 1) m k := by
    intro k hk
    subst hm'
    simp only [pathWeight, alookup_aset_ne _ _ _ _ hk]
  apply Finset.sum_lt_sum
  · intro i hi
    by_cases hir : r.2.2 = i
    · subst hir; exact Nat.le_of_lt hlt
    · exact Nat.le_of_eq (heq i hir)
  · exact ⟨r.2.2, hres, hlt⟩

theorem runPass_measure {U results : Finset String} :
    ∀ {rs' : List RecipeT} {m m' : PathMap} {b b' : Bool},
    (∀ r ∈ rs', r.2.2 ∈ results ∧ r.2.2 ∈ U) → PathsInU U m →
    runPass m b rs' = some (m', b') →
    PathsInU U m' ∧
      solverMeasure (U.card + 1) results m' ≤ solverMeasure (U.card + 1) results m ∧
      (b' = true → b = true ∨
        solverMeasure (U.card + 1) results m' < solverMeasure (U.card + 1) results m) := by
  intro rs'
  induction rs' with
  | nil =>
    intro m m' b b' hmem hU h
    simp only [runPass, Option.some.injEq, Prod.mk.injEq] at h
    obtain ⟨hm, hb⟩ := h
    subst hm; subst hb
    exact ⟨hU, Nat.le_refl _, fun hb' => Or.inl hb'⟩
  | cons r rest ih =>
    intro m m' b b' hmem hU h
    unfold runPass at h
    split at h
    · exact absurd h (by simp)
    · rename_i m₁ mod hstep
      have hU₁ : PathsInU U m₁ :=
        pathsInU_relaxStep hU (hmem r (List.mem_cons_self r rest)).2 hstep
      have hmem' : ∀ r' ∈ rest, r'.2.2 ∈ results ∧ r'.2.2 ∈ U :=
        fun r' hr' => hmem r' (List.mem_cons_of_mem _ hr')
      cases mod with
      | false =>
        have hm₁ : m₁ = m := relaxStep_not_modified hstep
        subst hm₁
        rw [Bool.or_false] at h
        exact ih hmem' hU h
      | true =>
        rw [Bool.or_true] at h
        have hlt : solverMeasure (U.card + 1) results m₁ <
            solverMeasure (U.card + 1) results m :=
          relaxStep_measure_lt hU (hmem r (List.mem_cons_self r rest)).1
            (hmem r (List.mem_cons_self r rest)).2 hstep
        obtain ⟨q1, q2, _⟩ := ih hmem' hU₁ h
        exact ⟨q1, Nat.le_trans q2 (Nat.le_of_lt hlt),
          fun _ => Or.inr (Nat.lt_of_le_of_lt q2 hlt)⟩

theorem solveLoop_ne_outOfFuel {rs : List RecipeT} (U results : Finset String)
    (hmem : ∀ r ∈ rs, r.2.2 ∈ results ∧ r.2.2 ∈ U) :
    ∀ {fuel : Nat} {m : PathMap}, PathsInU U m →
      solverMeasure (U.card + 1) results m < fuel →
      solveLoop rs fuel m ≠ .outOfFuel := by
  intro fuel
  induction fuel with
  | zero => intro m _ hlt; exact absurd hlt (by simp)
  | succ n ih =>
    intro m hU hlt
    unfold solveLoop
    split
    · simp
    · rename_i m' hp
      obtain ⟨hU', hle, hstrict⟩ := runPass_measure hmem hU hp
      rcases hstrict rfl with hfalse | hmlt
      · exact absurd hfalse (by simp)
      · exact ih hU' (Nat.lt_of_lt_of_le hmlt (Nat.lt_succ_iff.mp hlt))
    · simp

theorem alookup_initPaths {roots : List String} {k : String} {p : ElementPath}
    (h : alookup (initPaths roots) k = some p) : p = ⟨none, ∅⟩ := by
  induction roots with
  | nil => simp [initPaths, alookup] at h
  | cons r rest ih =>
    simp only [initPaths, List.map_cons, alookup] at h
    split at h
    · cases h; rfl
    · exact ih h

theorem pathsInU_initPaths {U : Finset String} {roots : List String} :
    PathsInU U (initPaths roots) := by
  intro k p hk
  rw [alookup_initPaths hk]
  exact Finset.empty_subset U

theorem solverMeasure_init_le {B : Nat} {results : Finset String} {roots : List String} :
    solverMeasure B results (initPaths roots) ≤ results.card * B := by
  have h := Finset.sum_le_card_nsmul results (pathWeight B (initPaths roots)) B ?_
  · simpa [smul_eq_mul] using h
  · intro x _
    unfold pathWeight
    split
    · exact Nat.le_refl B
    · rename_i p hp
      rw [alookup_initPaths hp]
      exact Nat.zero_le B

/-- **C9** (termination of the relaxation): for every finite recipe list
the outer loop of `compute_elements_paths` never exhausts its fuel bound
— each accepted update either inserts a new element or strictly
decreases a path cardinality, so a pass without modification (or the
`KeyError` of a missing ingredient) is reached after finitely many
passes — and the loop stops exactly at the first pass that makes no
modification: a converged result is a fixed point of a full pass. -/
theorem compute_elements_paths_terminates (rs : List RecipeT) (roots : List String) :
    compute_elements_paths rs roots ≠ .outOfFuel ∧
      ∀ m, compute_elements_paths rs roots = .converged m →
        runPass m false rs = some (m, false) := by
  constructor
  · have hmem : ∀ r ∈ rs, r.2.2 ∈ (rs.map (·.2.2)).toFinset ∧
        r.2.2 ∈ universeNames roots rs := by
      intro r hr
      have hres : r.2.2 ∈ (rs.map (·.2.2)).toFinset :=
        List.mem_toFinset.mpr (List.mem_map_of_mem _ hr)
      exact ⟨hres, Finset.mem_union_right _ hres⟩
    have h1 : solverMeasure ((universeNames roots rs).card + 1)
        (rs.map (·.2.2)).toFinset (initPaths roots) ≤
        (rs.map (·.2.2)).toFinset.card * ((universeNames roots rs).card + 1) :=
      solverMeasure_init_le
    exact solveLoop_ne_outOfFuel (universeNames roots rs) (rs.map (·.2.2)).toFinset
      hmem pathsInU_initPaths (Nat.lt_succ_of_le h1)
  · intro m h
    exact solveLoop_converged h

/-- Witness for `compute_elements_paths_terminates` at a one-recipe list:
the converged map is a fixed point of a full pass. -/
theorem compute_elements_paths_terminates_witness :
    runPass [("Water", ⟨none, ∅⟩), ("Fire", ⟨none, ∅⟩), ("Wind", ⟨none, ∅⟩),
        ("Earth", ⟨none, ∅⟩), ("Steam", ⟨some ("Water", "Fire"), {"Steam"}⟩)] false
        [("Water", "Fire", "Steam")] =
      some ([("Water", ⟨none, ∅⟩), ("Fire", ⟨none, ∅⟩), ("Wind", ⟨none, ∅⟩),
        ("Earth", ⟨none, ∅⟩), ("Steam", ⟨some ("Water", "Fire"), {"Steam"}⟩)], false) :=
  (compute_elements_paths_terminates [("Water", "Fire", "Steam")] rootElements).2 _
    (by decide)

/-- **C1**: appending a single recipe to a recipe list and re-running
`compute_elements_paths` can *increase* an element's converged path
cardinality, contradicting the claimed monotonicity (and the code
comment's own expectation, compute_paths.py lines 10–16): on this input
element `"Y"` converges at depth 5, and after appending the shortcut
recipe `G + D → X` it converges at depth 6 — the shortcut rewrites `X`'s
path set to one overlapping less with `c`'s, so `Y` locks in a larger
union. -/
theorem adding_recipe_increased_depth :
    pathCardOf (compute_elements_paths
      [("W", "F", "P"), ("W", "P", "p"), ("W", "E", "Q"), ("P", "Q", "M"),
       ("p", "E", "c"), ("M", "W", "X"), ("X", "c", "Y"), ("W", "D", "G"),
       ("p", "F", "X")] ["W", "F", "E", "D"]) "Y" = some 5 ∧
    pathCardOf (compute_elements_paths
      [("W", "F", "P"), ("W", "P", "p"), ("W", "E", "Q"), ("P", "Q", "M"),
       ("p", "E", "c"), ("M", "W", "X"), ("X", "c", "Y"), ("W", "D", "G"),
       ("p", "F", "X"), ("G", "D", "X")] ["W", "F", "E", "D"]) "Y" = some 6 := by
  decide

/-! ### Totality of the solver on well-ordered recipe lists -/

theorem alookup_aset_isSome_of {κ ν : Type} [DecidableEq κ]
    {m : List (κ × ν)} {k k' : κ} {v : ν} (h : (alookup m k').isSome) :
    (alookup (aset m k v) k').isSome := by
  by_cases hk : k = k'
  · subst hk; rw [alookup_aset_self]; rfl
  · rw [alookup_aset_ne _ _ _ _ hk]; exact h

theorem relaxStep_total {m : PathMap} {r : RecipeT}
    (hf : (alookup m r.1).isSome) (hs : (alookup m r.2.1).isSome) :
    ∃ m' b, relaxStep m r = some (m', b) ∧
      (∀ k, (alookup m k).isSome → (alookup m' k).isSome) ∧
      (alookup m' r.2.2).isSome := by
  obtain ⟨pf, hpf⟩ := Option.isSome_iff_exists.mp hf
  obtain ⟨ps, hps⟩ := Option.isSome_iff_exists.mp hs
  unfold relaxStep
  rw [hpf, hps]
  dsimp only
  rcases hpr : alookup m r.2.2 with _ | pr
  · refine ⟨_, _, rfl, ?_, ?_⟩
    · intro k hk; exact alookup_aset_isSome_of hk
    · rw [alookup_aset_self]; rfl
  · dsimp only
    by_cases hlt : (pf.path ∪ ps.path ∪ {r.2.2}).card < pr.path.card
    · rw [if_pos hlt]
      refine ⟨_, _, rfl, ?_, ?_⟩
      · intro k hk; exact alookup_aset_isSome_of hk
      · rw [alookup_aset_self]; rfl
    · rw [if_neg hlt]
      exact ⟨m, false, rfl, fun k h => h, by rw [hpr]; rfl⟩

theorem runPass_total :
    ∀ {rs' : List RecipeT} {m : PathMap} {b : Bool} {produced : List String},
    (∀ k ∈ produced, (alookup m k).isSome) → IngredientsProduced produced rs' →
    ∃ m' b', runPass m b rs' = some (m', b') ∧
      ∀ k, (alookup m k).isSome → (alookup m' k).isSome := by
  intro rs'
  induction rs' with
  | nil => intro m b produced _ _; exact ⟨m, b, rfl, fun _ h => h⟩
  | cons r rest ih =>
    intro m b produced hkeys hing
    obtain ⟨h1, h2, h3⟩ := hing
    obtain ⟨m₁, b₁, hstep, hmono, hres⟩ := relaxStep_total (hkeys _ h1) (hkeys _ h2)
    have hkeys₁ : ∀ k ∈ (r.2.2 :: produced), (alookup m₁ k).isSome := by
      intro k hk
      rcases List.mem_cons.mp hk with hk | hk
      · subst hk; exact hres
      · exact hmono _ (hkeys _ hk)
    obtain ⟨m', b', hp, hmono'⟩ := ih hkeys₁ h3
    refine ⟨m', b', ?_, fun k h => hmono' _ (hmono _ h)⟩
    unfold runPass
    rw [hstep]
    exact hp

theorem solveLoop_not_missing {rs : List RecipeT} {roots : List String}
    (hing : IngredientsProduced roots rs) :
    ∀ {fuel : Nat} {m : PathMap}, (∀ k ∈ roots, (alookup m k).isSome) →
      solveLoop rs fuel m ≠ .missingIngredient := by
  intro fuel
  induction fuel with
  | zero => intro m _; simp [solveLoop]
  | succ n ih =>
    intro m hkeys
    obtain ⟨m', b', hp, hmono⟩ := runPass_total hkeys hing
    unfold solveLoop
    rw [hp]
    cases b' with
    | true => exact ih fun k hk => hmono _ (hkeys _ hk)
    | false => simp

theorem initPaths_keys {roots : List String} :
    ∀ k ∈ roots, (alookup (initPaths roots) k).isSome := by
  induction roots with
  | nil => intro k hk; simp at hk
  | cons r rest ih =>
    intro k hk
    simp only [initPaths, List.map_cons, alookup]
    by_cases hr : r = k
    · rw [if_pos hr]; rfl
    · rw [if_neg hr]
      rcases List.mem_cons.mp hk with hk | hk
      · exact absurd hk.symm hr
      · exact ih k hk

/-- **C2** (counterexample): a recipe whose ingredients have no recorded
path is *not* skipped — `elements_paths[first]` raises `KeyError`
(compute_paths.py line 42 has no membership check), so the solver errors
on a single recipe between unknown elements. -/
theorem missing_ingredient_not_skipped :
    compute_elements_paths [("A", "B", "C")] rootElements = .missingIngredient := by
  decide

/-- **C2** (amended): `compute_elements_paths` never errors when every
recipe's ingredients are roots or results of strictly earlier recipes in
the list — the order in which the crawler appends recipes, and which the
repository's data validity test checks; under that hypothesis the solver
converges. -/
theorem compute_elements_paths_total_of_produced (rs : List RecipeT) (roots : List String)
    (h : IngredientsProduced roots rs) :
    ∃ m, compute_elements_paths rs roots = .converged m := by
  rcases hres : compute_elements_paths rs roots with _ | _ | m
  · exfalso
    have hmem : ∀ r ∈ rs, r.2.2 ∈ (rs.map (·.2.2)).toFinset ∧
        r.2.2 ∈ universeNames roots rs := by
      intro r hr
      have hresmem : r.2.2 ∈ (rs.map (·.2.2)).toFinset :=
        List.mem_toFinset.mpr (List.mem_map_of_mem _ hr)
      exact ⟨hresmem, Finset.mem_union_right _ hresmem⟩
    have h1 : solverMeasure ((universeNames roots rs).card + 1)
        (rs.map (·.2.2)).toFinset (initPaths roots) ≤
        (rs.map (·.2.2)).toFinset.card * ((universeNames roots rs).card + 1) :=
      solverMeasure_init_le
    exact solveLoop_ne_outOfFuel (universeNames roots rs) (rs.map (·.2.2)).toFinset
      hmem pathsInU_initPaths (Nat.lt_succ_of_le h1) hres
  · exact absurd hres (solveLoop_not_missing h initPaths_keys)
  · exact ⟨m, rfl⟩

/-- Witness for `compute_elements_paths_total_of_produced`. -/
theorem compute_elements_paths_total_of_produced_witness :
    ∃ m, compute_elements_paths [("Water", "Fire", "Steam")] rootElements =
      .converged m :=
  compute_elements_paths_total_of_produced _ _ (by decide)

/-! ### Invariant preservation through the solver -/

theorem runPass_preserves {rs : List RecipeT} (Φ : PathMap → Prop)
    (hstep : ∀ m m' (r : RecipeT) b, r ∈ rs → Φ m →
      relaxStep m r = some (m', b) → Φ m') :
    ∀ {rs' : List RecipeT}, (∀ r ∈ rs', r ∈ rs) →
      ∀ {m m' : PathMap} {b b' : Bool}, Φ m → runPass m b rs' = some (m', b') → Φ m' := by
  intro rs'
  induction rs' with
  | nil =>
    intro _ m m' b b' hm h
    simp only [runPass, Option.some.injEq, Prod.mk.injEq] at h
    exact h.1 ▸ hm
  | cons r rest ih =>
    intro hsub m m' b b' hm h
    unfold runPass at h
    split at h
    · exact absurd h (by simp)
    · rename_i m₁ mod hsteq
      have hΦ₁ : Φ m₁ := hstep _ _ _ _ (hsub r (List.mem_cons_self r rest)) hm hsteq
      exact ih (fun r' hr' => hsub r' (List.mem_cons_of_mem _ hr')) hΦ₁ h

theorem solveLoop_preserves {rs : List RecipeT} (Φ : PathMap → Prop)
    (hstep : ∀ m m' (r : RecipeT) b, r ∈ rs → Φ m →
      relaxStep m r = some (m', b) → Φ m') :
    ∀ {fuel : Nat} {m m' : PathMap}, Φ m → solveLoop rs fuel m = .converged m' → Φ m' := by
  intro fuel
  induction fuel with
  | zero => intro m m' _ h; simp [solveLoop] at h
  | succ n ih =>
    intro m m' hm h
    unfold solveLoop at h
    split at h
    · simp at h
    · rename_i m₁ hp
      exact ih (runPass_preserves Φ hstep (fun _ hr => hr) hm hp) h
    · rename_i m₁ hp
      have hm' : m' = m₁ := by simpa using h.symm
      subst hm'
      exact runPass_preserves Φ hstep (fun _ hr => hr) hm hp

theorem alookup_initPaths_mem {roots : List String} {k : String} {p : ElementPath}
    (h : alookup (initPaths roots) k = some p) : k ∈ roots := by
  induction roots with
  | nil => simp [initPaths, alookup] at h
  | cons r rest ih =>
    simp only [initPaths, List.map_cons, alookup] at h
    split at h
    · rename_i hr; exact hr ▸ List.mem_cons_self r rest
    · exact List.mem_cons_of_mem _ (ih h)

theorem ancFromRecipes_step {rs : List RecipeT} {m m' : PathMap} {r : RecipeT} {b : Bool}
    (hr : r ∈ rs) (hm : AncFromRecipes rs m) (h : relaxStep m r = some (m', b)) :
    AncFromRecipes rs m' := by
  cases b with
  | false => rw [relaxStep_not_modified h]; exact hm
  | true =>
    obtain ⟨pf, ps, _, _, hm', _⟩ := relaxStep_modified_spec h
    subst hm'
    intro k p a b' hk hanc
    by_cases hkr : r.2.2 = k
    · subst hkr
      rw [alookup_aset_self] at hk
      cases hk
      simp only [Option.some.injEq, Prod.mk.injEq] at hanc
      obtain ⟨ha, hb⟩ := hanc
      subst ha; subst hb
      exact hr
    · rw [alookup_aset_ne _ _ _ _ hkr] at hk
      exact hm _ _ _ _ hk hanc

theorem nonRootSelf_step {roots : List String} {m m' : PathMap} {r : RecipeT} {b : Bool}
    (hm : NonRootSelf roots m) (h : relaxStep m r = some (m', b)) :
    NonRootSelf roots m' := by
  cases b with
  | false => rw [relaxStep_not_modified h]; exact hm
  | true =>
    obtain ⟨pf, ps, _, _, hm', _⟩ := relaxStep_modified_spec h
    subst hm'
    intro k p hk hroot
    by_cases hkr : r.2.2 = k
    · subst hkr
      rw [alookup_aset_self] at hk
      cases hk
      refine ⟨by simp, ?_⟩
      exact Finset.mem_union_right _ (Finset.mem_singleton_self _)
    · rw [alookup_aset_ne _ _ _ _ hkr] at hk
      exact hm _ _ hk hroot

/-- **C3** (counterexample): after convergence, a non-root element's
recorded path need *not* equal the union of its recorded ancestors'
converged paths plus itself: a later shortcut shrank ancestor `"a"`'s
path, leaving `"X"`'s recorded set `{P, Q, a, b, X}` stale while
`path(a) ∪ path(b) ∪ {X} = {G, a, P, b, X}` (the cardinalities tie at 5,
so no further update fires). -/
theorem converged_path_not_ancestor_union :
    ancestorsOf (compute_elements_paths
        [("W", "F", "P"), ("W", "E", "Q"), ("P", "Q", "a"), ("W", "P", "b"),
         ("a", "b", "X"), ("W", "D", "G"), ("G", "D", "a")] ["W", "F", "E", "D"]) "X" =
      some (some ("a", "b")) ∧
    pathMemOf (compute_elements_paths
        [("W", "F", "P"), ("W", "E", "Q"), ("P", "Q", "a"), ("W", "P", "b"),
         ("a", "b", "X"), ("W", "D", "G"), ("G", "D", "a")] ["W", "F", "E", "D"])
      "X" "Q" = true ∧
    pathMemOf (compute_elements_paths
        [("W", "F", "P"), ("W", "E", "Q"), ("P", "Q", "a"), ("W", "P", "b"),
         ("a", "b", "X"), ("W", "D", "G"), ("G", "D", "a")] ["W", "F", "E", "D"])
      "a" "Q" = false ∧
    pathMemOf (compute_elements_paths
        [("W", "F", "P"), ("W", "E", "Q"), ("P", "Q", "a"), ("W", "P", "b"),
         ("a", "b", "X"), ("W", "D", "G"), ("G", "D", "a")] ["W", "F", "E", "D"])
      "b" "Q" = false ∧
    ("Q" : String) ≠ "X" := by
  decide

/-- **C3** (amended): after convergence, every recipe of the list that
produces an element gives a candidate union whose cardinality is at
least the recorded path's cardinality (local optimality in cardinality —
this covers the recorded ancestors themselves, since every recorded
ancestor pair stems from a recipe of the list, as the second conjunct
states); the claimed *set equality* with the recorded ancestors' union
does not hold in general. -/
theorem converged_locally_optimal (rs : List RecipeT) (roots : List String) (m : PathMap)
    (h : compute_elements_paths rs roots = .converged m) :
    (∀ r ∈ rs, ∀ pf ps pr, alookup m r.1 = some pf → alookup m r.2.1 = some ps →
        alookup m r.2.2 = some pr →
        pr.path.card ≤ (pf.path ∪ ps.path ∪ {r.2.2}).card) ∧
      AncFromRecipes rs m := by
  constructor
  · intro r hr pf ps pr hf hs hpr
    obtain ⟨pf', ps', pr', hf', hs', hpr', hcard⟩ :=
      relaxStep_fix_spec (compute_converged_fix h r hr)
    rw [hf] at hf'
    rw [hs] at hs'
    rw [hpr] at hpr'
    cases hf'
    cases hs'
    cases hpr'
    exact hcard
  · refine solveLoop_preserves (AncFromRecipes rs)
      (fun m₁ m₂ r b hr hm hs => ancFromRecipes_step hr hm hs) ?_ h
    intro k p a b hk hanc
    rw [alookup_initPaths hk] at hanc
    simp at hanc

/-- Witness for `converged_locally_optimal`: the converged `"Steam"` entry
is locally optimal against its only producing recipe. -/
theorem converged_locally_optimal_witness :
    ({"Steam"} : Finset String).card ≤
      ((∅ : Finset String) ∪ (∅ : Finset String) ∪ {"Steam"}).card :=
  (converged_locally_optimal [("Water", "Fire", "Steam")] rootElements
      [("Water", ⟨none, ∅⟩), ("Fire", ⟨none, ∅⟩), ("Wind", ⟨none, ∅⟩),
        ("Earth", ⟨none, ∅⟩), ("Steam", ⟨some ("Water", "Fire"), {"Steam"}⟩)]
      (by decide)).1
    ("Water", "Fire", "Steam") (by decide) ⟨none, ∅⟩ ⟨none, ∅⟩
    ⟨some ("Water", "Fire"), {"Steam"}⟩ (by decide) (by decide) (by decide)

/-- **C10**: the `"Nothing"` sentinel is not excluded by the batch solver:
when the recipe list contains a recipe producing `"Nothing"` and the run
converges, the returned map has an ordinary entry for `"Nothing"`, with
recorded ancestors and a path set containing `"Nothing"` itself. -/
theorem converged_nothing_entry (rs : List RecipeT) (roots : List String) (m : PathMap)
    (f s : String) (hconv : compute_elements_paths rs roots = .converged m)
    (hrec : (f, s, "Nothing") ∈ rs) (hroot : "Nothing" ∉ roots) :
    ∃ p, alookup m "Nothing" = some p ∧ p.ancestors ≠ none ∧ "Nothing" ∈ p.path := by
  obtain ⟨pf, ps, pr, hf, hs, hpr, _⟩ :=
    relaxStep_fix_spec (compute_converged_fix hconv _ hrec)
  have hnrs : NonRootSelf roots m := by
    refine solveLoop_preserves (NonRootSelf roots)
      (fun m₁ m₂ r b _ hm hstep => nonRootSelf_step hm hstep) ?_ hconv
    intro k p hk hroot'
    exact absurd (alookup_initPaths_mem hk) hroot'
  obtain ⟨ha, hp⟩ := hnrs _ _ hpr hroot
  exact ⟨pr, hpr, ha, hp⟩

/-- Witness for `converged_nothing_entry`. -/
theorem converged_nothing_entry_witness :
    ∃ p, alookup ([("Water", ⟨none, ∅⟩), ("Fire", ⟨none, ∅⟩), ("Wind", ⟨none, ∅⟩),
        ("Earth", ⟨none, ∅⟩),
        ("Nothing", ⟨some ("Water", "Fire"), {"Nothing"}⟩)] : PathMap) "Nothing" =
        some p ∧
      p.ancestors ≠ none ∧ "Nothing" ∈ p.path :=
  converged_nothing_entry [("Water", "Fire", "Nothing")] rootElements
    [("Water", ⟨none, ∅⟩), ("Fire", ⟨none, ∅⟩), ("Wind", ⟨none, ∅⟩),
      ("Earth", ⟨none, ∅⟩), ("Nothing", ⟨some ("Water", "Fire"), {"Nothing"}⟩)]
    "Water" "Fire" (by decide) (by decide) (by decide)

/-! ### Persistence claims -/

/-- **C4**: on a persisted collection with two entries for the same
unordered ingredient pair (`{A, B}`) and different results, the JSON
backend raises `DataError` as claimed, but the paginated CSV backend
performs no duplicate check: it silently returns a mapping in which the
first result has been overwritten by the second. -/
theorem csv_backend_silently_merges_duplicate_pair :
    json_load_recipes [("A", "B", "C"), ("B", "A", "D")] = none ∧
    csv_load_recipes [("A", "B", "C"), ("B", "A", "D")] = [({"A", "B"}, "D")] := by
  decide

/-! ### Fuzzy lookup claims -/

/-- **C5** (counterexample): the fuzzy lookup applies only the
apostrophe substitution and the title-casing — no whitespace removal and
no full upper/lower casing: querying `"abc"` against a map whose only
key is the fully upper-cased `"ABC"` finds nothing.  And it returns the
expansion of the *first* variation present, not results for every
variation found: with both `"abc"` (a root) and `"Abc"` (craftable from
`X + Y`) present, the query returns the empty expansion of `"abc"` and
drops `"Abc"`'s one-step recipe. -/
theorem fuzzy_lookup_missing_transformations :
    query_full_recipe [("ABC", none)] 5 "abc" = none ∧
    String.mk ("abc".toList.map Char.toUpper) = "ABC" ∧
    query_full_recipe
      [("abc", none), ("Abc", some ("X", "Y")), ("X", none), ("Y", none)] 5 "abc" =
      some [] ∧
    _query_full_recipe
      [("abc", none), ("Abc", some ("X", "Y")), ("X", none), ("Y", none)] 5 "Abc" =
      some [⟨"X", "Y", "Abc"⟩] := by
  decide

/-- **C5** (amended): `name_variations` consists of exactly the four
names obtained from the two transformations — the identity, the
typographic apostrophe substitution, the whitespace-boundary
title-casing, and their composition (each subset of the two
transformations, which commute, applied once) — and
`query_full_recipe` returns the expansion of the *first* of these
variations present in the ancestor map, or `none` when no variation is
present (a single candidate, never several). -/
theorem name_variations_and_first_match (anc : AncMap) (e : String) (fuel : Nat) :
    name_variations e =
      [e, apostropheTransform e, titleTransform e,
        titleTransform (apostropheTransform e)] ∧
    ((∀ v ∈ name_variations e, alookup anc v = none) →
      query_full_recipe anc fuel e = none) ∧
    (∀ v, (name_variations e).find? (fun n => (alookup anc n).isSome) = some v →
      query_full_recipe anc fuel e = _query_full_recipe anc fuel v) := by
  refine ⟨rfl, ?_, ?_⟩
  · intro h
    unfold query_full_recipe
    have hfind : (name_variations e).find?
        (fun n => (alookup anc n).isSome) = none := by
      rw [List.find?_eq_none]
      intro v hv
      simp [h v hv]
    rw [hfind]
  · intro v hfind
    unfold query_full_recipe
    rw [hfind]

/-- Witness for `name_variations_and_first_match`: the exact name `"abc"`
is absent but its title-cased variation `"Abc"` is present and gets
expanded. -/
theorem name_variations_and_first_match_witness :
    query_full_recipe [("Abc", none)] 3 "abc" =
      _query_full_recipe [("Abc", none)] 3 "Abc" :=
  (name_variations_and_first_match [("Abc", none)] "abc" 3).2.2 "Abc" (by decide)

/-! ### Exhaustive strategy claims -/

theorem update_next_spec (els : List String) (recipes : ClaimMap) :
    ∀ {fuel : Nat} {c c' : Nat × Nat},
    update_next_craft_combiantion els recipes fuel c = some c' →
    ∃ n, c' = increment_dual_index_tuple^[n] c ∧
      ∀ k < n, ∃ ing, comboAt els (increment_dual_index_tuple^[k] c) = some ing ∧
        alookup recipes ing = some true := by
  intro fuel
  induction fuel with
  | zero => intro c c' h; simp [update_next_craft_combiantion] at h
  | succ n ih =>
    intro c c' h
    unfold update_next_craft_combiantion at h
    split at h
    · simp at h
    · rename_i ing hcombo
      split at h
      · rename_i htrue
        obtain ⟨n', hn', hall⟩ := ih h
        refine ⟨n' + 1, ?_, ?_⟩
        · rw [Function.iterate_succ_apply]; exact hn'
        · intro k hk
          cases k with
          | zero => exact ⟨ing, hcombo, htrue⟩
          | succ k' =>
            rw [Function.iterate_succ_apply]
            exact hall k' (Nat.lt_of_succ_lt_succ hk)
      · have hc : c' = c := by simpa using h.symm
        subst hc
        exact ⟨0, rfl, fun k hk => absurd hk (Nat.not_lt_zero k)⟩

theorem sample_exhaustive_spec (els : List String) (recipes : ClaimMap) :
    ∀ {fuel : Nat} {c : Nat × Nat} {f s : String} {recipes' : ClaimMap},
    sample_elements_exhaustive els recipes fuel c = some (f, s, recipes') →
    alookup recipes ({f, s} : Finset String) = none ∧
      recipes' = aset recipes {f, s} false := by
  intro fuel
  induction fuel with
  | zero => intro c f s recipes' h; simp [sample_elements_exhaustive] at h
  | succ n ih =>
    intro c f s recipes' h
    unfold sample_elements_exhaustive at h
    split at h
    · rename_i first second hfirst hsecond
      split at h
      · exact ih h
      · rename_i hnone
        simp only [Option.some.injEq, Prod.mk.injEq] at h
        obtain ⟨hf, hs, hr⟩ := h
        subst hf; subst hs; subst hr
        exact ⟨Option.not_isSome_iff_eq_none.mp hnone, rfl⟩
    · simp at h

/-- **C8**: (i) `update_next_craft_combiantion` moves the shared cursor
only across combinations whose claim-map value is `True` (fully
committed) — the new cursor is an iterate of the increment function and
every combination strictly before it was committed; (ii)
`sample_elements` never returns a pair whose unordered combination is
present in the claim map at all (committed `True` or in-flight `False`)
— it claims the fresh pair itself; in particular (iii) a pair already
committed as a recipe (as after a restart, where `init_data` maps every
loaded recipe to `True`) is never re-issued. -/
theorem exhaustive_cursor_and_sampling (els : List String) (recipes : ClaimMap)
    (fuel : Nat) :
    (∀ c c', update_next_craft_combiantion els recipes fuel c = some c' →
      ∃ n, c' = increment_dual_index_tuple^[n] c ∧
        ∀ k < n, ∃ ing, comboAt els (increment_dual_index_tuple^[k] c) = some ing ∧
          alookup recipes ing = some true) ∧
    (∀ c f s recipes',
      sample_elements_exhaustive els recipes fuel c = some (f, s, recipes') →
      alookup recipes ({f, s} : Finset String) = none ∧
        recipes' = aset recipes {f, s} false) ∧
    (∀ c f s recipes',
      sample_elements_exhaustive els recipes fuel c = some (f, s, recipes') →
      alookup recipes ({f, s} : Finset String) ≠ some true) := by
  refine ⟨fun c c' h => update_next_spec els recipes h,
    fun c f s recipes' h => sample_exhaustive_spec els recipes h, ?_⟩
  intro c f s recipes' h
  rw [(sample_exhaustive_spec els recipes h).1]
  simp

/-- Witness for `exhaustive_cursor_and_sampling`: with `{"A"}` (the
self-pair `A + A`) committed, sampling from cursor `(0, 0)` over the
elements `["A", "B"]` skips it and claims the fresh pair `{B, A}`. -/
theorem exhaustive_cursor_and_sampling_witness :
    alookup ([({"A"}, true)] : ClaimMap) ({"B", "A"} : Finset String) = none ∧
      ([({"A"}, true), ({"B", "A"}, false)] : ClaimMap) =
        aset [({"A"}, true)] {"B", "A"} false :=
  (exhaustive_cursor_and_sampling ["A", "B"] [({"A"}, true)] 3).2.1 (0, 0) "B" "A"
    [({"A"}, true), ({"B", "A"}, false)] (by decide)

/-! ### Probabilistic sampling and crawl classification claims -/

theorem skewed_safety (els : List String) (paths : PathsDict)
    (discard : String → String → Bool) :
    ∀ {idxDraws : List (Nat × Nat)} {keepDraws : List ℚ} {f s : String},
    skewed_towards_low_depth els paths discard idxDraws keepDraws = some (f, s) →
    discard f s = false ∧ f ∈ els ∧ s ∈ els := by
  intro idxDraws
  induction idxDraws with
  | nil => intro keepDraws f s h; simp [skewed_towards_low_depth] at h
  | cons ij rest ih =>
    intro keepDraws f s h
    obtain ⟨i, j⟩ := ij
    unfold skewed_towards_low_depth at h
    split at h
    · dsimp only at h
      split at h
      · exact ih h
      · rename_i hdisc
        split at h
        · split at h
          · simp at h
          · split at h
            · simp only [Option.some.injEq, Prod.mk.injEq] at h
              obtain ⟨hf, hs⟩ := h
              subst hf; subst hs
              simp only [Bool.not_eq_true] at hdisc
              exact ⟨hdisc, List.get_mem _ _ _, List.get_mem _ _ _⟩
            · exact ih h
        · simp at h
    · exact ih h

theorem skewed_liveness (els : List String) (paths : PathsDict)
    (discard : String → String → Bool) (i j : Nat)
    (hi : i < els.length) (hj : j < els.length)
    (hdisc : discard (els.get ⟨i, hi⟩) (els.get ⟨j, hj⟩) = false)
    (hfp : (alookup paths (els.get ⟨i, hi⟩)).isSome)
    (hsp : (alookup paths (els.get ⟨j, hj⟩)).isSome) :
    skewed_towards_low_depth els paths discard [(i, j)] [0] =
      some (els.get ⟨i, hi⟩, els.get ⟨j, hj⟩) := by
  obtain ⟨fp, hfp'⟩ := Option.isSome_iff_exists.mp hfp
  obtain ⟨sp, hsp'⟩ := Option.isSome_iff_exists.mp hsp
  unfold skewed_towards_low_depth
  split
  · dsimp only
    rw [hdisc]
    simp only [Bool.false_eq_true, if_false]
    rw [hfp', hsp']
    dsimp only
    split
    · rfl
    · rename_i hneg
      exfalso
      apply hneg
      have : ((0 : ℚ)) * 0 * (1 + ((min fp.card sp.card - (fp ∩ sp).card : Nat) : ℚ)) = 0 := by
        ring
      rw [this]
      norm_num
  · rename_i hneg
    exact absurd ⟨hi, hj⟩ hneg

theorem ne_nothing_of_mem {els : List String} {x : String}
    (hx : x ∈ els) (h : "Nothing" ∉ els) : x ≠ "Nothing" :=
  fun heq => h (heq ▸ hx)

theorem fully_random_safety (elements : List String) (discard : String → String → Bool) :
    ∀ {draws : List (Nat × Nat)} {f s : String},
    fully_random elements discard draws = some (f, s) →
    discard f s = false ∧ f ∈ elements ∧ s ∈ elements := by
  intro draws
  induction draws with
  | nil => intro f s h; simp [fully_random] at h
  | cons ij rest ih =>
    intro f s h
    obtain ⟨i, j⟩ := ij
    unfold fully_random at h
    split at h
    · split at h
      · exact ih h
      · rename_i hdisc
        simp only [Option.some.injEq, Prod.mk.injEq] at h
        obtain ⟨hf, hs⟩ := h
        subst hf; subst hs
        simp only [Bool.not_eq_true] at hdisc
        exact ⟨hdisc, List.get_mem _ _ _, List.get_mem _ _ _⟩
    · simp at h

theorem fully_random_liveness (elements : List String)
    (discard : String → String → Bool) (i j : Nat)
    (hi : i < elements.length) (hj : j < elements.length)
    (hdisc : discard (elements.get ⟨i, hi⟩) (elements.get ⟨j, hj⟩) = false) :
    fully_random elements discard [(i, j)] =
      some (elements.get ⟨i, hi⟩, elements.get ⟨j, hj⟩) := by
  unfold fully_random
  split
  · split
    · rename_i hd
      have hd' : discard (elements.get ⟨i, hi⟩) (elements.get ⟨j, hj⟩) = true := hd
      rw [hdisc] at hd'
      exact absurd hd' (by decide)
    · rfl
  · rename_i hneg
    exact absurd ⟨hi, hj⟩ hneg

theorem targeted_safety {α : Type} (els : List String) (sims : List (String × α))
    (recipes : Finset (Finset String)) :
    ∀ {draws : List (Nat × Nat)} {f s : String},
    targeted_sample_elements els sims recipes draws = some (f, s) →
    ({f, s} : Finset String) ∉ recipes ∧ f ∈ els ∧ s ∈ els := by
  intro draws
  induction draws with
  | nil => intro f s h; simp [targeted_sample_elements] at h
  | cons ij rest ih =>
    intro f s h
    obtain ⟨i, j⟩ := ij
    unfold targeted_sample_elements at h
    split at h
    · split at h
      · exact ih h
      · rename_i hmem
        split at h
        · simp only [Option.some.injEq, Prod.mk.injEq] at h
          obtain ⟨hf, hs⟩ := h
          subst hf; subst hs
          exact ⟨hmem, List.get_mem _ _ _, List.get_mem _ _ _⟩
        · simp at h
    · exact ih h

theorem targeted_liveness {α : Type} (els : List String) (sims : List (String × α))
    (recipes : Finset (Finset String)) (i j : Nat)
    (hi : i < els.length) (hj : j < els.length)
    (hmem : ({els.get ⟨i, hi⟩, els.get ⟨j, hj⟩} : Finset String) ∉ recipes)
    (hfp : (alookup sims (els.get ⟨i, hi⟩)).isSome)
    (hsp : (alookup sims (els.get ⟨j, hj⟩)).isSome) :
    targeted_sample_elements els sims recipes [(i, j)] =
      some (els.get ⟨i, hi⟩, els.get ⟨j, hj⟩) := by
  obtain ⟨fv, hfv⟩ := Option.isSome_iff_exists.mp hfp
  obtain ⟨sv, hsv⟩ := Option.isSome_iff_exists.mp hsp
  unfold targeted_sample_elements
  rw [dif_pos ⟨hi, hj⟩, if_neg hmem, hfv, hsv]

theorem sample_exhaustive_mem (els : List String) (recipes : ClaimMap) :
    ∀ {fuel : Nat} {c : Nat × Nat} {f s : String} {recipes' : ClaimMap},
    sample_elements_exhaustive els recipes fuel c = some (f, s, recipes') →
    f ∈ els ∧ s ∈ els := by
  intro fuel
  induction fuel with
  | zero => intro c f s recipes' h; simp [sample_elements_exhaustive] at h
  | succ n ih =>
    intro c f s recipes' h
    unfold sample_elements_exhaustive at h
    split at h
    · rename_i first second hfirst hsecond
      split at h
      · exact ih h
      · simp only [Option.some.injEq, Prod.mk.injEq] at h
        obtain ⟨hf, hs, _⟩ := h
        subst hf; subst hs
        exact ⟨List.get?_mem hfirst, List.get?_mem hsecond⟩
    · simp at h

theorem sample_exhaustive_liveness (els : List String) (recipes : ClaimMap)
    (fuel : Nat) (c : Nat × Nat) (f s : String)
    (hf : els.get? c.1 = some f) (hs : els.get? c.2 = some s)
    (habs : alookup recipes ({f, s} : Finset String) = none) :
    sample_elements_exhaustive els recipes (fuel + 1) c =
      some (f, s, aset recipes {f, s} false) := by
  unfold sample_elements_exhaustive
  rw [hf, hs]
  dsimp only
  rw [habs]
  rfl

/-- **C7**: every sampling strategy returns only acceptable pairs drawn
from the element list, and the crawl step contains the `"Nothing"`
sentinel.  (i) Whenever the low-depth-biased strategy
(`skewed_towards_low_depth`) or `fully_random` returns a pair, that pair
passed the caller's discard predicate (which the crawlers instantiate
with "the unordered pair is already a known recipe / forbidden");
whenever the exhaustive strategy's `sample_elements` returns, the pair's
unordered combination is absent from the claim map; whenever the
target-similarity strategy's `sample_elements` returns, the pair is not
already a known recipe.  In all four cases both names come from the
element list, so no strategy ever proposes a pair containing
`"Nothing"` while `"Nothing"` is not in that list.  (ii) Each strategy
does return a pair for suitable random draws whenever an acceptable
in-range pair exists (the low-depth keep probability is always
positive; for the exhaustive strategy, when the combination at the
cursor is fresh).  (iii) A crafting result `"Nothing"` records the
recipe fact but leaves the element set and the element list untouched,
so the classification step never introduces `"Nothing"` into the
element set. -/
theorem sampling_and_nothing_containment {α : Type} (els : List String)
    (paths : PathsDict) (sims : List (String × α))
    (discard : String → String → Bool) (claimMap : ClaimMap)
    (recipes : Finset (Finset String)) (st : CrawlState) :
    (∀ idxDraws keepDraws f s,
      skewed_towards_low_depth els paths discard idxDraws keepDraws = some (f, s) →
      discard f s = false ∧ f ∈ els ∧ s ∈ els ∧
        ("Nothing" ∉ els → f ≠ "Nothing" ∧ s ≠ "Nothing")) ∧
    (∀ i j (hi : i < els.length) (hj : j < els.length),
      discard (els.get ⟨i, hi⟩) (els.get ⟨j, hj⟩) = false →
      (alookup paths (els.get ⟨i, hi⟩)).isSome →
      (alookup paths (els.get ⟨j, hj⟩)).isSome →
      ∃ idxDraws keepDraws fs,
        skewed_towards_low_depth els paths discard idxDraws keepDraws = some fs) ∧
    (∀ draws f s, fully_random els discard draws = some (f, s) →
      discard f s = false ∧ f ∈ els ∧ s ∈ els ∧
        ("Nothing" ∉ els → f ≠ "Nothing" ∧ s ≠ "Nothing")) ∧
    (∀ i j (hi : i < els.length) (hj : j < els.length),
      discard (els.get ⟨i, hi⟩) (els.get ⟨j, hj⟩) = false →
      ∃ draws fs, fully_random els discard draws = some fs) ∧
    (∀ fuel c f s claimMap',
      sample_elements_exhaustive els claimMap fuel c = some (f, s, claimMap') →
      alookup claimMap ({f, s} : Finset String) = none ∧ f ∈ els ∧ s ∈ els ∧
        ("Nothing" ∉ els → f ≠ "Nothing" ∧ s ≠ "Nothing")) ∧
    (∀ fuel c f s, els.get? c.1 = some f → els.get? c.2 = some s →
      alookup claimMap ({f, s} : Finset String) = none →
      sample_elements_exhaustive els claimMap (fuel + 1) c =
        some (f, s, aset claimMap {f, s} false)) ∧
    (∀ draws f s, targeted_sample_elements els sims recipes draws = some (f, s) →
      ({f, s} : Finset String) ∉ recipes ∧ f ∈ els ∧ s ∈ els ∧
        ("Nothing" ∉ els → f ≠ "Nothing" ∧ s ≠ "Nothing")) ∧
    (∀ i j (hi : i < els.length) (hj : j < els.length),
      ({els.get ⟨i, hi⟩, els.get ⟨j, hj⟩} : Finset String) ∉ recipes →
      (alookup sims (els.get ⟨i, hi⟩)).isSome →
      (alookup sims (els.get ⟨j, hj⟩)).isSome →
      ∃ draws fs, targeted_sample_elements els sims recipes draws = some fs) ∧
    (∀ f s, (crawl_classify st f s "Nothing").recipes = insert {f, s} st.recipes ∧
      (crawl_classify st f s "Nothing").elements_set = st.elements_set ∧
      (crawl_classify st f s "Nothing").elements_list = st.elements_list) ∧
    (∀ f s t, "Nothing" ∉ st.elements_set →
      "Nothing" ∉ (crawl_classify st f s t).elements_set) := by
  refine ⟨?_, ?_, ?_, ?_, ?_, ?_, ?_, ?_, ?_, ?_⟩
  · intro idxDraws keepDraws f s h
    obtain ⟨hd, hf, hs⟩ := skewed_safety els paths discard h
    exact ⟨hd, hf, hs,
      fun hno => ⟨ne_nothing_of_mem hf hno, ne_nothing_of_mem hs hno⟩⟩
  · intro i j hi hj hdisc hfp hsp
    exact ⟨[(i, j)], [0], _, skewed_liveness els paths discard i j hi hj hdisc hfp hsp⟩
  · intro draws f s h
    obtain ⟨hd, hf, hs⟩ := fully_random_safety els discard h
    exact ⟨hd, hf, hs,
      fun hno => ⟨ne_nothing_of_mem hf hno, ne_nothing_of_mem hs hno⟩⟩
  · intro i j hi hj hdisc
    exact ⟨[(i, j)], _, fully_random_liveness els discard i j hi hj hdisc⟩
  · intro fuel c f s claimMap' h
    obtain ⟨habs, _⟩ := sample_exhaustive_spec els claimMap h
    obtain ⟨hf, hs⟩ := sample_exhaustive_mem els claimMap h
    exact ⟨habs, hf, hs,
      fun hno => ⟨ne_nothing_of_mem hf hno, ne_nothing_of_mem hs hno⟩⟩
  · intro fuel c f s hf hs habs
    exact sample_exhaustive_liveness els claimMap fuel c f s hf hs habs
  · intro draws f s h
    obtain ⟨habs, hf, hs⟩ := targeted_safety els sims recipes h
    exact ⟨habs, hf, hs,
      fun hno => ⟨ne_nothing_of_mem hf hno, ne_nothing_of_mem hs hno⟩⟩
  · intro i j hi hj hmem hfp hsp
    exact ⟨[(i, j)], _, targeted_liveness els sims recipes i j hi hj hmem hfp hsp⟩
  · intro f s
    simp [crawl_classify]
  · intro f s t h
    unfold crawl_classify
    dsimp only
    split_ifs with h1 h2
    · exact h
    · exact h
    · intro hmem
      rcases Finset.mem_insert.mp hmem with heq | hmem'
      · exact h1 heq.symm
      · exact h hmem'

/-- Witness for `sampling_and_nothing_containment`: with both elements
acceptable, suitable draws make the low-depth strategy return a pair. -/
theorem sampling_and_nothing_containment_witness :
    ∃ idxDraws keepDraws fs,
      skewed_towards_low_depth ["A", "B"] [("A", ∅), ("B", ∅)]
        (fun _ _ => false) idxDraws keepDraws = some fs :=
  (sampling_and_nothing_containment ["A", "B"] [("A", ∅), ("B", ∅)]
      [("A", (0 : ℚ)), ("B", (0 : ℚ))] (fun _ _ => false) []
      (∅ : Finset (Finset String)) ⟨∅, ∅, []⟩).2.1 0 1 (by decide) (by decide)
    (by decide) (by decide) (by decide)

/-! ### RecipeExpander claims -/

theorem opsOk_mono {anc : AncMap} :
    ∀ {l : List Operation} {P P' : List String}, (∀ x, x ∈ P → x ∈ P') →
      OpsOk anc P l → OpsOk anc P' l := by
  intro l
  induction l with
  | nil => intro P P' _ _; trivial
  | cons op rest ih =>
    intro P P' hsub h
    obtain ⟨h1, h2, h3⟩ := h
    refine ⟨?_, ?_, ih ?_ h3⟩
    · rcases h1 with h1 | h1
      · exact Or.inl h1
      · exact Or.inr (hsub _ h1)
    · rcases h2 with h2 | h2
      · exact Or.inl h2
      · exact Or.inr (hsub _ h2)
    · intro x hx
      rcases List.mem_cons.mp hx with hx | hx
      · exact hx ▸ List.mem_cons_self _ _
      · exact List.mem_cons_of_mem _ (hsub _ hx)

theorem opsOk_firstDedupAux {anc : AncMap} :
    ∀ {l : List Operation} {P : List String} {seen : List Operation},
      (∀ o ∈ seen, o.result ∈ P) → OpsOk anc P l →
      OpsOk anc P (firstDedupAux seen l) := by
  intro l
  induction l with
  | nil => intro P seen _ _; trivial
  | cons op rest ih =>
    intro P seen hseen h
    obtain ⟨h1, h2, h3⟩ := h
    unfold firstDedupAux
    split
    · rename_i hmem
      refine ih hseen (opsOk_mono ?_ h3)
      intro x hx
      rcases List.mem_cons.mp hx with hx | hx
      · exact hx ▸ hseen op hmem
      · exact hx
    · rename_i hmem
      refine ⟨h1, h2, ih ?_ h3⟩
      intro o ho
      rcases List.mem_cons.mp ho with ho | ho
      · exact ho ▸ List.mem_cons_self _ _
      · exact List.mem_cons_of_mem _ (hseen o ho)

theorem mem_firstDedupAux {α : Type} [DecidableEq α] :
    ∀ {l seen : List α} {x : α},
      x ∈ firstDedupAux seen l ↔ x ∈ l ∧ x ∉ seen := by
  intro l
  induction l with
  | nil => intro seen x; simp [firstDedupAux]
  | cons a rest ih =>
    intro seen x
    unfold firstDedupAux
    split
    · rename_i hmem
      rw [ih]
      constructor
      · rintro ⟨hx, hnx⟩
        exact ⟨List.mem_cons_of_mem _ hx, hnx⟩
      · rintro ⟨hx, hnx⟩
        rcases List.mem_cons.mp hx with hx | hx
        · exact absurd (hx ▸ hmem) hnx
        · exact ⟨hx, hnx⟩
    · rename_i hmem
      simp only [List.mem_cons, ih, List.mem_cons]
      constructor
      · rintro (rfl | ⟨hx, hnx⟩)
        · exact ⟨Or.inl rfl, hmem⟩
        · exact ⟨Or.inr hx, fun hc => hnx (Or.inr hc)⟩
      · rintro ⟨hx, hnx⟩
        by_cases hxa : x = a
        · exact Or.inl hxa
        · rcases hx with rfl | hx
          · exact absurd rfl hxa
          · exact Or.inr ⟨hx, fun hc => hc.elim hxa hnx⟩

theorem nodup_firstDedupAux {α : Type} [DecidableEq α] :
    ∀ {l seen : List α}, (firstDedupAux seen l).Nodup := by
  intro l
  induction l with
  | nil => intro seen; simp [firstDedupAux]
  | cons a rest ih =>
    intro seen
    unfold firstDedupAux
    split
    · exact ih
    · refine List.nodup_cons.mpr ⟨?_, ih⟩
      intro hmem
      exact (mem_firstDedupAux.mp hmem).2 (List.mem_cons_self _ _)

theorem opsOk_append {anc : AncMap} :
    ∀ {l1 l2 : List Operation} {P : List String},
      OpsOk anc P l1 → OpsOk anc (producedAfter P l1) l2 → OpsOk anc P (l1 ++ l2) := by
  intro l1
  induction l1 with
  | nil => intro l2 P _ h2; exact h2
  | cons op rest ih =>
    intro l2 P h1 h2
    obtain ⟨ha, hb, hc⟩ := h1
    exact ⟨ha, hb, ih hc h2⟩

theorem mem_producedAfter_base {P : List String} {x : String} (h : x ∈ P) :
    ∀ {l : List Operation}, x ∈ producedAfter P l := by
  intro l
  induction l generalizing P with
  | nil => exact h
  | cons op rest ih => exact ih (List.mem_cons_of_mem _ h)

theorem mem_producedAfter_of_mem :
    ∀ {l : List Operation} {P : List String} {op : Operation},
      op ∈ l → op.result ∈ producedAfter P l := by
  intro l
  induction l with
  | nil => intro P op h; simp at h
  | cons a rest ih =>
    intro P op h
    rcases List.mem_cons.mp h with h | h
    · subst h
      exact mem_producedAfter_base (List.mem_cons_self _ _)
    · exact ih h

theorem expand_spec (anc : AncMap) (rank : String → Nat)
    (hrank : ∀ e f s, alookup anc e = some (some (f, s)) →
      rank f < rank e ∧ rank s < rank e)
    (hclosed : ∀ e f s, alookup anc e = some (some (f, s)) →
      (alookup anc f).isSome ∧ (alookup anc s).isSome) :
    ∀ (fuel : Nat) (e : String), (alookup anc e).isSome → rank e < fuel →
    ∃ l, _query_full_recipe anc fuel e = some l ∧
      (alookup anc e = some none → l = []) ∧
      l.Nodup ∧ OpsOk anc [] l ∧
      (∀ op ∈ l, rank op.result ≤ rank e) ∧
      (alookup anc e ≠ some none → e ∈ l.map (·.result)) := by
  intro fuel
  induction fuel with
  | zero => intro e _ h; exact absurd h (Nat.not_lt_zero _)
  | succ n ih =>
    intro e he hfe
    obtain ⟨v, hv⟩ := Option.isSome_iff_exists.mp he
    cases v with
    | none =>
      refine ⟨[], ?_, fun _ => rfl, List.nodup_nil, trivial, by simp, ?_⟩
      · unfold _query_full_recipe
        rw [hv]
      · intro hne
        exact absurd hv hne
    | some fs =>
      obtain ⟨f, s⟩ := fs
      have hr := hrank e f s hv
      have hc := hclosed e f s hv
      have hf_lt : rank f < n := Nat.lt_of_lt_of_le hr.1 (Nat.lt_succ_iff.mp hfe)
      have hs_lt : rank s < n := Nat.lt_of_lt_of_le hr.2 (Nat.lt_succ_iff.mp hfe)
      obtain ⟨l1, h1eq, _, _, h1ok, h1rank, h1res⟩ := ih f hc.1 hf_lt
      obtain ⟨l2, h2eq, _, _, h2ok, h2rank, h2res⟩ := ih s hc.2 hs_lt
      refine ⟨firstDedup (l1 ++ l2) ++ [⟨f, s, e⟩], ?_, ?_, ?_, ?_, ?_, ?_⟩
      · unfold _query_full_recipe
        rw [hv]
        dsimp only
        rw [h1eq, h2eq]
      · intro habs
        rw [hv] at habs
        simp at habs
      · refine List.Nodup.append nodup_firstDedupAux (List.nodup_singleton _) ?_
        intro a ha hb
        rw [List.mem_singleton] at hb
        subst hb
        have hmem : (⟨f, s, e⟩ : Operation) ∈ l1 ++ l2 := (mem_firstDedupAux.mp ha).1
        rcases List.mem_append.mp hmem with hm | hm
        · exact absurd (Nat.lt_of_le_of_lt (h1rank _ hm) hr.1) (Nat.lt_irrefl _)
        · exact absurd (Nat.lt_of_le_of_lt (h2rank _ hm) hr.2) (Nat.lt_irrefl _)
      · refine opsOk_append ?_ ?_
        · refine opsOk_firstDedupAux (fun o ho => absurd ho (List.not_mem_nil o)) ?_
          refine opsOk_append h1ok ?_
          exact opsOk_mono (fun x hx => absurd hx (List.not_mem_nil x)) h2ok
        · refine ⟨?_, ?_, trivial⟩
          · by_cases hroot : alookup anc f = some none
            · exact Or.inl hroot
            · refine Or.inr ?_
              obtain ⟨op, hop, hope⟩ := List.mem_map.mp (h1res hroot)
              have hd : op ∈ firstDedup (l1 ++ l2) :=
                mem_firstDedupAux.mpr ⟨List.mem_append_left _ hop, List.not_mem_nil _⟩
              exact hope ▸ mem_producedAfter_of_mem hd
          · by_cases hroot : alookup anc s = some none
            · exact Or.inl hroot
            · refine Or.inr ?_
              obtain ⟨op, hop, hope⟩ := List.mem_map.mp (h2res hroot)
              have hd : op ∈ firstDedup (l1 ++ l2) :=
                mem_firstDedupAux.mpr ⟨List.mem_append_right _ hop, List.not_mem_nil _⟩
              exact hope ▸ mem_producedAfter_of_mem hd
      · intro op hop
        rcases List.mem_append.mp hop with hm | hm
        · rcases List.mem_append.mp (mem_firstDedupAux.mp hm).1 with hm' | hm'
          · exact Nat.le_of_lt (Nat.lt_of_le_of_lt (h1rank _ hm') hr.1)
          · exact Nat.le_of_lt (Nat.lt_of_le_of_lt (h2rank _ hm') hr.2)
        · rw [List.mem_singleton] at hm
          subst hm
          exact Nat.le_refl _
      · intro _
        rw [List.map_append]
        apply List.mem_append_right
        simp

/-- **C6**: over an acyclic ancestor map (witnessed by a rank function)
that is closed (both ancestors of every non-root entry have entries),
`_query_full_recipe` succeeds given fuel above the element's rank, and
its operation list satisfies the claim: a root element expands to the
empty list, no operation appears twice, and every operation's inputs
are root elements or results of earlier operations in the list — so in
a diamond dependency the shared ancestor's producing step appears
exactly once, before both dependents. -/
theorem recipe_expander_correct (anc : AncMap) (rank : String → Nat)
    (hrank : ∀ e f s, alookup anc e = some (some (f, s)) →
      rank f < rank e ∧ rank s < rank e)
    (hclosed : ∀ e f s, alookup anc e = some (some (f, s)) →
      (alookup anc f).isSome ∧ (alookup anc s).isSome)
    (fuel : Nat) (e : String) (he : (alookup anc e).isSome) (hfuel : rank e < fuel) :
    ∃ l, _query_full_recipe anc fuel e = some l ∧
      (alookup anc e = some none → l = []) ∧
      l.Nodup ∧ OpsOk anc [] l := by
  obtain ⟨l, h1, h2, h3, h4, _, _⟩ := expand_spec anc rank hrank hclosed fuel e he hfuel
  exact ⟨l, h1, h2, h3, h4⟩

/-- Witness for `recipe_expander_correct` on the spec's diamond example
(`Life` depends on `Plant` and `Mud`, which share `Water`/`Earth`
ancestry). -/
theorem recipe_expander_correct_witness :
    ∃ l, _query_full_recipe exampleAncestors 4 "Life" = some l ∧
      (alookup exampleAncestors "Life" = some none → l = []) ∧
      l.Nodup ∧ OpsOk exampleAncestors [] l := by
  refine recipe_expander_correct exampleAncestors exampleRank ?_ ?_ 4 "Life"
    (by decide) (by decide)
  · intro e f s h
    have hm := alookup_mem h
    simp only [exampleAncestors, List.mem_cons, List.not_mem_nil, or_false,
      Prod.mk.injEq, Option.some.injEq, reduceCtorEq, false_and, and_false,
      false_or] at hm
    rcases hm with ⟨rfl, rfl, rfl⟩ | ⟨rfl, rfl, rfl⟩ | ⟨rfl, rfl, rfl⟩ | ⟨rfl, rfl, rfl⟩ <;>
      decide
  · intro e f s h
    have hm := alookup_mem h
    simp only [exampleAncestors, List.mem_cons, List.not_mem_nil, or_false,
      Prod.mk.injEq, Option.some.injEq, reduceCtorEq, false_and, and_false,
      false_or] at hm
    rcases hm with ⟨rfl, rfl, rfl⟩ | ⟨rfl, rfl, rfl⟩ | ⟨rfl, rfl, rfl⟩ | ⟨rfl, rfl, rfl⟩ <;>
      decide

end InfiniteCraftBot
